import Mathlib

/-!
Verification of the goelement HTML-tree library (`goelement.go`).

The Go code builds a tree of `Node`s from a stream of HTML tokens
(`dive`) and offers path-based lookups over that tree (`MatchesPath`,
`FindPath`, `FindPathAll`, `FindTag`, `FindTagReverse`, `FlattenChildren`,
`Path`).  This file is a shallow embedding of that code:

* A Go `html.Token` is modelled by `Token` (start tag, self-closing tag,
  end tag, text; the tokenizer's error token is the end of the list).
  Only the fields `dive` reads are kept: the tag name (`Data`) and the
  ordered attribute list (`Attr`).
* The tree itself is the inductive `HNode` (tag name, raw attribute list,
  ordered children).  A Go `*Node` is a *located* node `Node`: the subtree
  it heads together with the chain of its ancestor subtrees, nearest
  first; the Go `Parent` pointer is the head of that chain.
* Go functions that can dereference a nil pointer return `Except Unit _`
  (`.error ()` models the runtime panic) or, for `MatchesPath`, whose
  receiver may be the nil `node.Parent`, an `Option Bool` result where
  `none` models the panic.
* `dive` mutates `parent.Children` through pointers.  The embedding keeps
  the equivalent explicit state `DiveState`: the list of currently open
  nodes (`stack`, cursor first, each holding its already-completed
  children) plus the root once it has been closed (`closedRoot`).  A
  frame's children are attached to the frame below when the frame closes
  (or at end of stream), which yields exactly the tree the Go code has
  built through in-place appends.
* Go's `strings.Split(path, "/")`, `strings.TrimPrefix(seg, ".")` and
  `strings.HasPrefix(seg, ".")` are modelled character-by-character
  (`splitSlash`, `trimDot`, `startsDot`) so that all definitions evaluate
  inside the kernel.
* `MatchesPath` recurses on `strings.Join(split[:len(split)-1], "/")`;
  re-splitting that string gives back `split[:len(split)-1]`, so the
  embedding passes the segment list directly, reversed once so that the
  tail-first consumption of the Go code is structural recursion
  (`matchesPathRev`; the reversed list `[""]` is the empty path).
-/

namespace GoElement

/-- One `html.Attribute` as `dive` sees it (the namespace field is never
read by this library). -/
structure Attr where
  key : String
  val : String
deriving DecidableEq, Repr

/-- The token kinds `dive` dispatches on.  `html.ErrorToken` ends the
loop and is modelled as the end of the token list. -/
inductive Token : Type where
  | startTag : String → List Attr → Token
  | selfClosingTag : String → List Attr → Token
  | endTag : String → Token
  | text : String → Token
deriving DecidableEq, Repr

/-- A subtree of the built document: tag name (`Token.Data`), the raw
ordered attribute list (`Token.Attr`) and the ordered children. -/
inductive HNode : Type where
  | mk : String → List Attr → List HNode → HNode
deriving Repr

/-- Tag name of the node (Go `node.Data`). -/
def HNode.data : HNode → String
  | .mk d _ _ => d

/-- Raw attribute list of the node (Go `node.Attr`). -/
def HNode.attrs : HNode → List Attr
  | .mk _ a _ => a

/-- Ordered children of the node (Go `node.Children`). -/
def HNode.children : HNode → List HNode
  | .mk _ _ c => c

/-- A Go `*Node`: the subtree it heads plus the chain of the subtrees of
its ancestors, nearest ancestor first (empty for the root).  The Go
`Parent` pointer is the head of `ancestors`. -/
structure Node where
  self : HNode
  ancestors : List HNode

/-- Tag name, Go `node.Data`. -/
def Node.Data (n : Node) : String := n.self.data

/-- The Go `node.Parent` pointer (`none` is the nil pointer). -/
def Node.Parent : Node → Option Node
  | ⟨_, []⟩ => none
  | ⟨_, a :: rest⟩ => some ⟨a, rest⟩

/-- Go `strings.Split s "/"` (the separator is never empty here), written
out on the character list so that it evaluates in the kernel. -/
def splitSlashAux : List Char → List Char → List String
  | [], acc => [String.mk acc.reverse]
  | '/' :: rest, acc => String.mk acc.reverse :: splitSlashAux rest []
  | c :: rest, acc => splitSlashAux rest (c :: acc)

/-- Go `strings.Split path "/"`; on the empty string it yields `[""]`. -/
def splitSlash (s : String) : List String :=
  splitSlashAux s.toList []

/-- Go `strings.HasPrefix s "."`. -/
def startsDot (s : String) : Bool :=
  match s.toList with
  | '.' :: _ => true
  | _ => false

/-- Go `strings.TrimPrefix s "."` (removes at most one leading dot). -/
def trimDot (s : String) : String :=
  match s.toList with
  | '.' :: rest => String.mk rest
  | _ => s

/-- The attribute map built by `newNode`.  The Go loop stores `&attr`,
the address of the *loop variable*, under every key, so with the loop
semantics the code was written for (Go before 1.22, and this module-less
repository predates modules) every stored pointer aliases one variable
whose final value is the last attribute of the list.  Hence: a key is
present iff it occurs in the list, and every present key yields the last
(key, value) pair of the whole list. -/
def newNodeAttrs (attrList : List Attr) (key : String) : Option Attr :=
  match attrList.getLast? with
  | none => none
  | some last => if attrList.any (fun a => a.key == key) then some last else none

/-- Go `Node.HasClass`: an empty filter always passes, otherwise the
`class` attribute must exist and its value equal `cls` exactly. -/
def HasClass (n : Node) (cls : String) : Bool :=
  if cls == "" then true
  else
    match newNodeAttrs n.self.attrs "class" with
    | none => false
    | some check => check.val == cls

/-- Go `Node.HasID`: same shape as `HasClass` for the `id` attribute. -/
def HasID (n : Node) (idv : String) : Bool :=
  if idv == "" then true
  else
    match newNodeAttrs n.self.attrs "id" with
    | none => false
    | some check => check.val == idv

/-- Go `Node.FindTagReverse` unfolded on the ancestor chain: if the
current node's tag matches, return it; otherwise recurse into the parent,
returning `none` from the root. -/
def findTagReverseT (tag : String) : HNode → List HNode → Option Node
  | t, [] => if t.data == tag then some ⟨t, []⟩ else none
  | t, a :: rest =>
    if t.data == tag then some ⟨t, a :: rest⟩ else findTagReverseT tag a rest

/-- Go `Node.FindTagReverse`. -/
def FindTagReverse (n : Node) (tag : String) : Option Node :=
  findTagReverseT tag n.self n.ancestors

mutual
/-- Go `Node.FindTag` on a subtree located below ancestors `anc`: the
node itself first, then the children left to right, depth first. -/
def findTagT (tag : String) (anc : List HNode) : HNode → Option Node
  | .mk d a cs =>
    if d == tag then some ⟨.mk d a cs, anc⟩
    else findTagListT tag (.mk d a cs :: anc) cs
/-- The `for _, child := range node.Children` loop of `FindTag`. -/
def findTagListT (tag : String) (anc : List HNode) : List HNode → Option Node
  | [] => none
  | c :: cs =>
    match findTagT tag anc c with
    | some r => some r
    | none => findTagListT tag anc cs
end

/-- Go `Node.FindTag`. -/
def FindTag (n : Node) (tag : String) : Option Node :=
  findTagT tag n.ancestors n.self

/-- Go `Node.MatchesPath`, with the receiver made explicit because the
code calls it on the possibly-nil `node.Parent`.  The path is carried as
its `/`-split segment list *in reverse* (the code consumes the last
segment and recurses on the `/`-join of the rest, which re-splits to
exactly that rest; reversing once makes this structural).  `[""]`
(reversed or not) is the split of the empty path, which matches
unconditionally before the receiver is ever dereferenced.  A `none`
result is the runtime panic of reading `node.Data` from a nil receiver;
it arises exactly when a direct-child step walks past the root while
path segments remain. -/
def matchesPathRev (node? : Option Node) (rsegs : List String) : Option Bool :=
  match rsegs with
  | [] => some true
  | current0 :: front =>
    if current0 :: front = [""] then some true
    else
      match node? with
      | none => none
      | some node =>
        let directChild := startsDot current0
        let current := trimDot current0
        match front with
        | [] => some (current == node.self.data)
        | second :: _ =>
          if current != node.self.data then some false
          else if directChild then
            matchesPathRev node.Parent front
          else
            match FindTagReverse node (trimDot second) with
            | some p => matchesPathRev (some p) front
            | none => some false

/-- Go `Node.MatchesPath` on a non-nil node. -/
def MatchesPath (n : Node) (path : String) : Option Bool :=
  matchesPathRev (some n) (splitSlash path).reverse

/-- Go `NodePath`. -/
structure NodePath where
  Path : String
  ID : String
  Class : String
deriving Repr

/-- The combined filter `node.MatchesPath(path) == true && node.HasClass(class)
&& node.HasID(ID)` evaluated by `FindPath` and `findAll`; stated over the
total results, so it only describes runs where `MatchesPath` did not
panic. -/
def nodeMatches (np : NodePath) (n : Node) : Bool :=
  (MatchesPath n np.Path == some true) && HasClass n np.Class && HasID n np.ID

mutual
/-- Go `Node.FindPath` on a subtree below ancestors `anc`: test the node,
then recurse into the children left to right, propagating a panic from
`MatchesPath`. -/
def findPathT (np : NodePath) (anc : List HNode) : HNode → Except Unit (Option Node)
  | .mk d a cs =>
    match MatchesPath ⟨.mk d a cs, anc⟩ np.Path with
    | none => .error ()
    | some m =>
      if m && HasClass ⟨.mk d a cs, anc⟩ np.Class && HasID ⟨.mk d a cs, anc⟩ np.ID then
        .ok (some ⟨.mk d a cs, anc⟩)
      else findPathListT np (.mk d a cs :: anc) cs
/-- The children loop of `FindPath`: first non-nil result wins. -/
def findPathListT (np : NodePath) (anc : List HNode) : List HNode → Except Unit (Option Node)
  | [] => .ok none
  | c :: cs =>
    match findPathT np anc c with
    | .error e => .error e
    | .ok (some r) => .ok (some r)
    | .ok none => findPathListT np anc cs
end

/-- Go `Node.FindPath`. -/
def FindPath (n : Node) (np : NodePath) : Except Unit (Option Node) :=
  findPathT np n.ancestors n.self

mutual
/-- Go `Node.findAll` on a subtree below `anc`, with the shared slice
`*nodes` as the accumulator `acc`: append the node if it passes the
filter, then walk every child. -/
def findAllT (np : NodePath) (anc : List HNode) (acc : List Node) : HNode → Except Unit (List Node)
  | .mk d a cs =>
    match MatchesPath ⟨.mk d a cs, anc⟩ np.Path with
    | none => .error ()
    | some m =>
      findAllListT np (.mk d a cs :: anc)
        (if m && HasClass ⟨.mk d a cs, anc⟩ np.Class && HasID ⟨.mk d a cs, anc⟩ np.ID then
          acc ++ [⟨.mk d a cs, anc⟩]
        else acc) cs
/-- The children loop of `findAll`. -/
def findAllListT (np : NodePath) (anc : List HNode) (acc : List Node) :
    List HNode → Except Unit (List Node)
  | [] => .ok acc
  | c :: cs =>
    match findAllT np anc acc c with
    | .error e => .error e
    | .ok acc2 => findAllListT np anc acc2 cs
end

/-- Go `Node.FindPathAll`: `findAll` started on an empty slice. -/
def FindPathAll (n : Node) (np : NodePath) : Except Unit (List Node) :=
  findAllT np n.ancestors [] n.self

mutual
/-- Go `Node.getChildTree` on a subtree below `anc`: append the node to
the shared slice, then every child in order. -/
def getChildTreeT (anc : List HNode) (acc : List Node) : HNode → List Node
  | .mk d a cs => childTreeListT (.mk d a cs :: anc) (acc ++ [⟨.mk d a cs, anc⟩]) cs
/-- The children loop of `getChildTree`. -/
def childTreeListT (anc : List HNode) (acc : List Node) : List HNode → List Node
  | [] => acc
  | c :: cs => childTreeListT anc (getChildTreeT anc acc c) cs
end

/-- Go `Node.FlattenChildren`: `getChildTree` over the children, starting
from an empty slice (the node itself is excluded). -/
def FlattenChildren (n : Node) : List Node :=
  childTreeListT (n.self :: n.ancestors) [] n.self.children

/-- Go `Node.createPath`: prefix `"/" + Data` and recurse into the
parent until the root. -/
def createPathT (path : String) : HNode → List HNode → String
  | t, [] => "/" ++ t.data ++ path
  | t, a :: rest => createPathT ("/" ++ t.data ++ path) a rest

/-- Go `Node.Path`. -/
def Path (n : Node) : String :=
  createPathT "" n.self n.ancestors

/-- One open node of `dive`: its token data plus the children completed
so far (Go attaches children in place; here they are attached when the
frame closes, which produces the same tree). -/
structure Frame where
  data : String
  attrs : List Attr
  children : List HNode
deriving Repr

/-- The state of `dive`'s loop: the chain of open nodes (`stack`, cursor
first — the Go `parent` pointer is its head, nil iff the stack is empty)
and the root node once it has been closed by an end tag (the Go `root`
pointer outlives the cursor). -/
structure DiveState where
  closedRoot : Option HNode
  stack : List Frame
deriving Repr

/-- Turn an open frame into the completed subtree it denotes. -/
def closeFrame (f : Frame) : HNode :=
  .mk f.data f.attrs f.children

/-- The end-tag search `parent.FindTagReverse(tag)` followed by
`parent = tag.Parent`, walking the open chain cursor-first: `f` is the
frame currently examined, the list the frames below it.  On a match the
examined frame closes into the subtree it denotes and the frames below
it stay open; while no match, the examined frame is attached as the last
child of the frame below (it was already attached in the Go tree) and
the search moves down.  `none` means no open node carries the tag, in
which case the Go code leaves the cursor, and hence the state,
unchanged. -/
def closeUptoGo (tag : String) : Frame → List Frame → Option (HNode × List Frame)
  | f, [] => if f.data == tag then some (closeFrame f, []) else none
  | f, g :: gs =>
    if f.data == tag then some (closeFrame f, g :: gs)
    else closeUptoGo tag ⟨g.data, g.attrs, g.children ++ [closeFrame f]⟩ gs

/-- One iteration of `dive`'s token loop.  `Except.error ()` is a Go
runtime panic: every branch that reads through the nil cursor —
`parent.Children` on a start tag once a root exists, `parent.Children`
on a self-closing tag, `parent.FindTagReverse` (which reads
`node.Data`) on an end tag — panics when the stack is empty. -/
def diveStep (st : DiveState) : Token → Except Unit DiveState
  | .startTag d a =>
    match st.stack with
    | [] =>
      match st.closedRoot with
      | none => .ok ⟨none, [⟨d, a, []⟩]⟩
      | some _ => .error ()
    | f :: fs => .ok ⟨st.closedRoot, ⟨d, a, []⟩ :: f :: fs⟩
  | .selfClosingTag d a =>
    match st.stack with
    | [] => .error ()
    | f :: fs => .ok ⟨st.closedRoot, ⟨f.data, f.attrs, f.children ++ [.mk d a []]⟩ :: fs⟩
  | .endTag d =>
    match st.stack with
    | [] => .error ()
    | f :: fs =>
      match closeUptoGo d f fs with
      | none => .ok st
      | some (sub, []) => .ok ⟨some sub, []⟩
      | some (sub, g :: gs) => .ok ⟨st.closedRoot, ⟨g.data, g.attrs, g.children ++ [sub]⟩ :: gs⟩
  | .text _ => .ok st

/-- Fold the still-open chain into the tree it denotes: each open node is
the last child of the node below it. -/
def collapseStack : HNode → List Frame → HNode
  | t, [] => t
  | t, f :: fs => collapseStack (.mk f.data f.attrs (f.children ++ [t])) fs

/-- The `root` pointer `dive` returns at end of stream: the root with
everything attached so far, or `none` when no start tag ever arrived. -/
def finish (st : DiveState) : Option HNode :=
  match st.stack with
  | [] => st.closedRoot
  | f :: fs => some (collapseStack (closeFrame f) fs)

/-- Run `dive`'s loop over a token list from a given state. -/
def runTokens : DiveState → List Token → Except Unit DiveState
  | st, [] => .ok st
  | st, t :: ts =>
    match diveStep st t with
    | .error e => .error e
    | .ok st2 => runTokens st2 ts

/-- Go `dive`: consume the whole stream from the empty state and return
the root (the error token that ends the tokenizer's stream is the end of
the list). -/
def dive (toks : List Token) : Except Unit (Option HNode) :=
  match runTokens ⟨none, []⟩ toks with
  | .error e => .error e
  | .ok st => .ok (finish st)

/-- Text-token recognizer (`dive`'s switch has no case for
`html.TextToken`, so these tokens are skipped). -/
def isTextTok : Token → Bool
  | .text _ => true
  | _ => false

mutual
/-- Specification-side depth-first pre-order listing of the located
nodes of a subtree below ancestors `anc`: the node itself, then the
pre-orders of its children left to right. -/
def preorderT (anc : List HNode) : HNode → List Node
  | .mk d a cs => ⟨.mk d a cs, anc⟩ :: preorderListT (.mk d a cs :: anc) cs
/-- Pre-order listing of a sibling list. -/
def preorderListT (anc : List HNode) : List HNode → List Node
  | [] => []
  | c :: cs => preorderT anc c ++ preorderListT anc cs
end

/-- Pre-order (document-order) listing of a located node and all of its
descendants. -/
def preorder (n : Node) : List Node :=
  preorderT n.ancestors n.self

/-- The chain of located nodes from a node up to the root, the node
itself first (the nodes `FindTagReverse` can return). -/
def parentChainT : HNode → List HNode → List Node
  | t, [] => [⟨t, []⟩]
  | t, a :: rest => ⟨t, a :: rest⟩ :: parentChainT a rest

/-- The upward chain of a located node, itself included. -/
def parentChain (n : Node) : List Node :=
  parentChainT n.self n.ancestors

/-- Specification-side `/`-joining of a list of names: the plain
`strings.Join` with separator `/`, no leading separator. -/
def joinSlash : List String → String
  | [] => ""
  | [x] => x
  | x :: y :: rest => x ++ "/" ++ joinSlash (y :: rest)

/-- The chain of tag names from the root down to a located node. -/
def rootChain (n : Node) : List String :=
  (n.self.data :: n.ancestors.map HNode.data).reverse

/-- The `h1` leaf of `<div><section><h1>X</h1></section></div>`. -/
def h1T : HNode := .mk "h1" [] []

/-- The `section` subtree of that document. -/
def sectionT : HNode := .mk "section" [] [h1T]

/-- The root of that document. -/
def divT : HNode := .mk "div" [] [sectionT]

/-- The `h1` node of that document as a located node. -/
def h1Loc : Node := ⟨h1T, [sectionT, divT]⟩

/-- Token stream of `<div><section><h1>X</h1></section></div>`. -/
def c6Toks : List Token :=
  [.startTag "div" [], .startTag "section" [], .startTag "h1" [],
    .text "X", .endTag "h1", .endTag "section", .endTag "div"]

/-- Leaf `b` whose parent chain is `b → r → x → r`(root): it matches the
path `x/.r/.b`. -/
def bInnerT : HNode := .mk "b" [] []

/-- Inner `r` wrapping `bInnerT`. -/
def rInnerT : HNode := .mk "r" [] [bInnerT]

/-- Inner `x` wrapping `rInnerT`. -/
def xInnerT : HNode := .mk "x" [] [rInnerT]

/-- Second child of the root, a `b` whose parent is the root `r`:
matching `x/.r/.b` against it walks two direct-child steps past the
root and dereferences the root's nil parent. -/
def bTopT : HNode := .mk "b" [] []

/-- Root of the tree `<r><x><r><b/></r></x><b/></r>`. -/
def rRootT : HNode := .mk "r" [] [xInnerT, bTopT]

/-- The query whose matching panics at `bTopT` but matches `bInnerT`. -/
def cexNP : NodePath := ⟨"x/.r/.b", "", ""⟩

/-- First `h1` of `<div><h1 class="element"/><h1/></div>`. -/
def h1ElemT : HNode := .mk "h1" [⟨"class", "element"⟩] []

/-- Second `h1` of that document. -/
def h1PlainT : HNode := .mk "h1" [] []

/-- Root of `<div><h1 class="element"/><h1/></div>`. -/
def divPairT : HNode := .mk "div" [] [h1ElemT, h1PlainT]

/-- The query `div/h1` with no class or id filter. -/
def divH1NP : NodePath := ⟨"div/h1", "", ""⟩

/-! ## Shared lemmas -/

/-- Running the token loop over an appended stream runs the two parts in
sequence, propagating a panic from the first. -/
theorem runTokens_append (l1 l2 : List Token) : ∀ st : DiveState,
    runTokens st (l1 ++ l2) =
      match runTokens st l1 with
      | .error e => .error e
      | .ok st2 => runTokens st2 l2 := by
  induction l1 with
  | nil => intro st; rfl
  | cons t ts ih =>
    intro st
    rw [List.cons_append, runTokens, runTokens]
    cases hd : diveStep st t with
    | error e => rfl
    | ok st2 => exact ih st2

/-- When no frame of the open chain carries the tag, the end-tag search
comes back empty. -/
theorem closeUptoGo_none (tag : String) (fs : List Frame) : ∀ f : Frame,
    f.data ≠ tag → (∀ g ∈ fs, g.data ≠ tag) → closeUptoGo tag f fs = none := by
  induction fs with
  | nil =>
    intro f hf _
    rw [closeUptoGo]
    simp [hf]
  | cons g gs ih =>
    intro f hf hall
    rw [closeUptoGo]
    rw [if_neg (by simpa using hf)]
    exact ih ⟨g.data, g.attrs, g.children ++ [closeFrame f]⟩
      (hall g (List.mem_cons_self g gs)) (fun x hx => hall x (List.mem_cons_of_mem g hx))

/-- Appending one name to a nonempty `/`-joined list appends one
separator and the name. -/
theorem joinSlash_append_last (x : String) : ∀ l : List String, l ≠ [] →
    joinSlash (l ++ [x]) = joinSlash l ++ "/" ++ x := by
  intro l
  induction l with
  | nil => intro h; exact absurd rfl h
  | cons y r ih =>
    intro _
    cases r with
    | nil => rfl
    | cons z r2 =>
      have h2 := ih (by simp)
      rw [List.cons_append] at h2
      simp only [List.cons_append, joinSlash, List.append_eq]
      rw [h2]
      simp [String.append_assoc]

/-- Unfolding of `createPathT`: the result is a leading slash, the
`/`-joined root-to-node tag chain, then the accumulated suffix. -/
theorem createPathT_eq (anc : List HNode) : ∀ (t : HNode) (path : String),
    createPathT path t anc =
      "/" ++ joinSlash ((t.data :: anc.map HNode.data).reverse) ++ path := by
  induction anc with
  | nil =>
    intro t path
    rw [createPathT]
    simp [joinSlash, String.append_assoc]
  | cons a rest ih =>
    intro t path
    rw [createPathT, ih]
    have hne : (a.data :: rest.map HNode.data).reverse ≠ [] := by simp
    have : ((t.data :: (a :: rest).map HNode.data)).reverse
        = (a.data :: rest.map HNode.data).reverse ++ [t.data] := by simp
    rw [this, joinSlash_append_last _ _ hne]
    simp [String.append_assoc]

/-! ## Claim C9 -/

/-- C9: on well-formed markup with two consecutive top-level elements
(`<a></a><b></b>`), the second top-level start tag arrives with a root
established but a nil cursor, and `dive` dereferences the nil cursor
(`parent.Children`) instead of attaching the node or returning. -/
theorem c9_second_toplevel_start_panics :
    dive [Token.startTag "a" [], Token.endTag "a", Token.startTag "b" [], Token.endTag "b"]
      = .error () := rfl

/-! ## Claim C1 -/

/-- C1 counterexample: a self-closing-tag token arriving with no open
cursor is not a silent no-op — `dive` dereferences the nil cursor in
`parent.Children = append(parent.Children, node)` and construction
aborts instead of continuing. -/
theorem c1_counterexample : dive [Token.selfClosingTag "img" []] = .error () := rfl

/-- C1 amended: for every token stream in which a self-closing-tag token
arrives while there is no open cursor, tree construction crashes at that
token (nil-pointer dereference on `parent.Children`); it neither
continues nor returns a root. -/
theorem c1_amended_selfclosing_nil_cursor_panics (ts rest : List Token) (tag : String)
    (attrs : List Attr) (st : DiveState)
    (h1 : runTokens ⟨none, []⟩ ts = .ok st) (h2 : st.stack = []) :
    dive (ts ++ Token.selfClosingTag tag attrs :: rest) = .error () := by
  obtain ⟨cr, stk⟩ := st
  have h2' : stk = [] := h2
  subst h2'
  simp only [dive, runTokens_append, h1, runTokens, diveStep]

/-- Witness for C1: the empty prefix reaches the initial state, whose
cursor is nil, and a self-closing `img` then crashes construction. -/
theorem c1_witness :
    runTokens ⟨none, []⟩ ([] : List Token) = .ok ⟨none, []⟩ ∧
    dive ([] ++ Token.selfClosingTag "img" [] :: []) = .error () :=
  ⟨rfl, c1_amended_selfclosing_nil_cursor_panics [] [] "img" [] ⟨none, []⟩ rfl rfl⟩

/-! ## Claim C2 -/

/-- C2 counterexample: the stream consisting of the single stray end tag
`</span>` (an end tag with no matching open ancestor) crashes
construction — `parent.FindTagReverse` reads `node.Data` through the nil
cursor — rather than leaving the cursor unchanged and continuing. -/
theorem c2_counterexample : dive [Token.endTag "span"] = .error () := rfl

/-- C2 amended: an end-tag token with no matching open ancestor is
harmless exactly when a cursor is open when it arrives: the state (and
hence the cursor) is left unchanged, and the whole parse equals the
parse of the same stream without the stray tag, so nodes from subsequent
tokens still attach to the current parent.  (When the cursor is nil, any
end tag crashes construction, per the counterexample.) -/
theorem c2_amended_stray_end_tag_noop (ts1 ts2 : List Token) (tag : String) (st : DiveState)
    (h1 : runTokens ⟨none, []⟩ ts1 = .ok st) (h2 : st.stack ≠ [])
    (h3 : ∀ f ∈ st.stack, f.data ≠ tag) :
    diveStep st (Token.endTag tag) = .ok st ∧
    dive (ts1 ++ Token.endTag tag :: ts2) = dive (ts1 ++ ts2) := by
  obtain ⟨cr, stk⟩ := st
  have hstep : diveStep ⟨cr, stk⟩ (Token.endTag tag) = .ok ⟨cr, stk⟩ := by
    cases stk with
    | nil => exact absurd rfl h2
    | cons f fs =>
      have hnone : closeUptoGo tag f fs = none :=
        closeUptoGo_none tag fs f (h3 f (List.mem_cons_self f fs))
          (fun g hg => h3 g (List.mem_cons_of_mem f hg))
      simp [diveStep, hnone]
  refine ⟨hstep, ?_⟩
  rw [dive, dive, runTokens_append, runTokens_append, h1]
  simp only [runTokens, hstep]

/-- Witness for C2: after `<div>`, the stray `</span>` leaves the state
unchanged and the parse equals the parse without it. -/
theorem c2_witness :
    diveStep ⟨none, [⟨"div", [], []⟩]⟩ (Token.endTag "span") = .ok ⟨none, [⟨"div", [], []⟩]⟩ ∧
    dive ([Token.startTag "div" []] ++ Token.endTag "span"
        :: [Token.selfClosingTag "img" [], Token.endTag "div"])
      = dive ([Token.startTag "div" []] ++ [Token.selfClosingTag "img" [], Token.endTag "div"]) :=
  c2_amended_stray_end_tag_noop [Token.startTag "div" []]
    [Token.selfClosingTag "img" [], Token.endTag "div"] "span" ⟨none, [⟨"div", [], []⟩]⟩
    rfl (by simp) (by decide)

/-! ## Claim C4 -/

/-- C4 (code bug): on the attribute list `class="element" id="x"`, the
map built by `newNode` sends the key `class` to the *last pair of the
whole list* — the loop stores `&attr`, the address of the loop variable,
under every key — so looking up `class` yields the value `x`, not that
key's own last-written value `element`, and `HasClass` then rejects the
node's own class. -/
theorem c4_attr_map_aliases_last_pair :
    newNodeAttrs [⟨"class", "element"⟩, ⟨"id", "x"⟩] "class" = some ⟨"id", "x"⟩ ∧
    (newNodeAttrs [⟨"class", "element"⟩, ⟨"id", "x"⟩] "class").map Attr.val ≠ some "element" ∧
    HasClass ⟨.mk "p" [⟨"class", "element"⟩, ⟨"id", "x"⟩] [], []⟩ "element" = false :=
  ⟨rfl, by decide, rfl⟩

/-! ## Claim C5 -/

/-- C5 counterexample: on the tree built from `<a></a>`, the root's
`Path` is `"/a"`, which is not the `/`-joined chain `"a"` — every tag is
preceded by a separator, so the result carries a leading slash. -/
theorem c5_counterexample :
    dive [Token.startTag "a" [], Token.endTag "a"] = .ok (some (.mk "a" [] [])) ∧
    Path ⟨.mk "a" [] [], []⟩ = "/a" ∧
    joinSlash (rootChain ⟨.mk "a" [] [], []⟩) = "a" ∧
    Path ⟨.mk "a" [] [], []⟩ ≠ joinSlash (rootChain ⟨.mk "a" [] [], []⟩) :=
  ⟨rfl, rfl, rfl, by decide⟩

/-- C5 amended: for every node, `Path` returns a `"/"` followed by the
`/`-joined chain of tag names from the root down to that node (one
leading separator before every tag, no direct-child markers, no
filters). -/
theorem c5_amended_path_has_leading_slash (n : Node) :
    Path n = "/" ++ joinSlash (rootChain n) := by
  rw [Path, createPathT_eq, rootChain]
  simp

/-! ## Claim C6 -/

/-- C6: on the tree built from `<div><section><h1>X</h1></section></div>`,
the `h1` node (a node of that tree) fails `div/.h1` — the direct-child
marker demands that the immediate parent be `div`, but it is `section` —
and passes `div/h1`, where `div` only needs to be an ancestor. -/
theorem c6_direct_child_marker :
    dive c6Toks = .ok (some divT) ∧
    h1Loc ∈ preorder ⟨divT, []⟩ ∧
    MatchesPath h1Loc "div/.h1" = some false ∧
    MatchesPath h1Loc "div/h1" = some true := by
  refine ⟨rfl, ?_, rfl, rfl⟩
  have hpre : preorder ⟨divT, []⟩ = [⟨divT, []⟩, ⟨sectionT, [divT]⟩, h1Loc] := rfl
  rw [hpre]
  exact List.mem_cons_of_mem _ (List.mem_cons_of_mem _ (List.mem_cons_self _ _))

/-! ## Claim C3 -/

/-- C3 counterexample: the path `div/div` *does* match a `div` node with
no `div` ancestor (here a lone root `div`, with no ancestors at all):
the upward search for the unmarked second-to-last segment starts at the
node itself, which satisfies it. -/
theorem c3_counterexample :
    (⟨.mk "div" [] [], []⟩ : Node).ancestors = [] ∧
    MatchesPath ⟨.mk "div" [] [], []⟩ "div/div" = some true :=
  ⟨rfl, rfl⟩

/-- C3 amended: an unmarked second-to-last segment is satisfied by the
nearest node on the parent chain *including the node itself* whose tag
matches (`FindTagReverse` starts at its receiver).  In particular, when
the second-to-last segment names the node's own tag the node satisfies
it itself, so `div/div` matches every `div` node, `div` ancestor or
not. -/
theorem c3_amended_unmarked_segment_matches_self (n : Node) (h : n.Data = "div") :
    MatchesPath n "div/div" = some true := by
  obtain ⟨s, as⟩ := n
  have hs : s.data = "div" := h
  have hsplit : (splitSlash "div/div").reverse = ["div", "div"] := rfl
  have hdot : startsDot "div" = false := rfl
  have htrim : trimDot "div" = "div" := rfl
  have hftr : FindTagReverse ⟨s, as⟩ "div" = some ⟨s, as⟩ := by
    cases as with
    | nil => simp [FindTagReverse, findTagReverseT, hs]
    | cons a rest => simp [FindTagReverse, findTagReverseT, hs]
  rw [MatchesPath, hsplit]
  simp [matchesPathRev, hdot, htrim, hftr, hs]

/-- Witness for C3 amended: applied to a concrete lone `div`. -/
theorem c3_witness :
    (⟨.mk "div" [] [HNode.mk "p" [] []], []⟩ : Node).Data = "div" ∧
    MatchesPath ⟨.mk "div" [] [HNode.mk "p" [] []], []⟩ "div/div" = some true :=
  ⟨rfl, c3_amended_unmarked_segment_matches_self ⟨.mk "div" [] [HNode.mk "p" [] []], []⟩ rfl⟩

/-! ## Claim C10 -/

/-- C10: text tokens contribute nothing to the built tree — for every
token stream, `dive` returns exactly what it returns on the stream with
all text tokens removed, so no node and no stored field ever originates
from a text token (every node comes from a start or self-closing tag,
and element text is not retrievable from the tree). -/
theorem c10_text_tokens_ignored (toks : List Token) :
    dive toks = dive (toks.filter (fun t => !isTextTok t)) := by
  have key : ∀ (l : List Token) (st : DiveState),
      runTokens st l = runTokens st (l.filter (fun t => !isTextTok t)) := by
    intro l
    induction l with
    | nil => intro st; rfl
    | cons t ts ih =>
      intro st
      cases ht : isTextTok t with
      | true =>
        have hstep : diveStep st t = .ok st := by
          cases t with
          | text s => rfl
          | startTag d a => simp [isTextTok] at ht
          | selfClosingTag d a => simp [isTextTok] at ht
          | endTag d => simp [isTextTok] at ht
        rw [runTokens, hstep, List.filter_cons]
        simp only [ht, Bool.not_true, Bool.false_eq_true, if_false]
        exact ih st
      | false =>
        rw [List.filter_cons]
        simp only [ht, Bool.not_false, if_pos]
        rw [runTokens, runTokens]
        cases hd : diveStep st t with
        | error e => rfl
        | ok st2 => exact ih st2
  rw [dive, dive, key]

/-! ## Shared lemmas about the traversals -/

mutual
/-- The shared slice of `getChildTree` ends as the accumulator followed
by the pre-order of the subtree. -/
theorem getChildTreeT_eq (anc : List HNode) (acc : List Node) (t : HNode) :
    getChildTreeT anc acc t = acc ++ preorderT anc t := by
  match t with
  | .mk d a cs =>
    rw [getChildTreeT, preorderT, childTreeListT_eq]
    simp
/-- Sibling-list version of `getChildTreeT_eq`. -/
theorem childTreeListT_eq (anc : List HNode) (acc : List Node) (cs : List HNode) :
    childTreeListT anc acc cs = acc ++ preorderListT anc cs := by
  match cs with
  | [] => rw [childTreeListT, preorderListT]; simp
  | c :: cs2 =>
    rw [childTreeListT, preorderListT, childTreeListT_eq, getChildTreeT_eq]
    simp
end

/-- `FlattenChildren` lists exactly the descendants, in pre-order. -/
theorem flattenChildren_eq (n : Node) :
    FlattenChildren n = preorderListT (n.self :: n.ancestors) n.self.children := by
  rw [FlattenChildren, childTreeListT_eq]
  simp

/-- Everything `FlattenChildren` returns is a node of the subtree. -/
theorem mem_flattenChildren_mem_preorder (n : Node) (r : Node)
    (h : r ∈ FlattenChildren n) : r ∈ preorder n := by
  obtain ⟨s, as⟩ := n
  match s with
  | .mk d a cs =>
    rw [flattenChildren_eq] at h
    rw [preorder, preorderT]
    exact List.mem_cons_of_mem _ h

mutual
/-- A node found by `FindTag` is a node of the searched subtree. -/
theorem findTagT_mem (tag : String) (anc : List HNode) (t : HNode) (r : Node)
    (h : findTagT tag anc t = some r) : r ∈ preorderT anc t := by
  match t with
  | .mk d a cs =>
    rw [findTagT] at h
    rw [preorderT]
    split at h
    · simp at h
      subst h
      exact List.mem_cons_self _ _
    · exact List.mem_cons_of_mem _ (findTagListT_mem tag _ cs r h)
/-- Sibling-list version of `findTagT_mem`. -/
theorem findTagListT_mem (tag : String) (anc : List HNode) (cs : List HNode) (r : Node)
    (h : findTagListT tag anc cs = some r) : r ∈ preorderListT anc cs := by
  match cs with
  | [] => rw [findTagListT] at h; simp at h
  | c :: cs2 =>
    rw [findTagListT] at h
    rw [preorderListT]
    split at h
    · next heq =>
        simp at h
        subst h
        exact List.mem_append_left _ (findTagT_mem tag anc c _ heq)
    · exact List.mem_append_right _ (findTagListT_mem tag anc cs2 r h)
end

/-- A node found by `FindTagReverse` lies on the upward chain of the
receiver (the receiver itself included). -/
theorem findTagReverseT_mem (tag : String) (anc : List HNode) : ∀ (t : HNode) (r : Node),
    findTagReverseT tag t anc = some r → r ∈ parentChainT t anc := by
  induction anc with
  | nil =>
    intro t r h
    rw [findTagReverseT] at h
    rw [parentChainT]
    split at h
    · simp at h
      subst h
      exact List.mem_cons_self _ _
    · simp at h
  | cons a rest ih =>
    intro t r h
    rw [findTagReverseT] at h
    rw [parentChainT]
    split at h
    · simp at h
      subst h
      exact List.mem_cons_self _ _
    · exact List.mem_cons_of_mem _ (ih a r h)

mutual
/-- When `findAll` returns, the shared slice holds the accumulator
followed by exactly the pre-order nodes passing the combined filter. -/
theorem findAllT_ok (np : NodePath) (anc : List HNode) (acc : List Node) (t : HNode)
    (l : List Node) (h : findAllT np anc acc t = .ok l) :
    l = acc ++ (preorderT anc t).filter (nodeMatches np) := by
  match t with
  | .mk d a cs =>
    rw [findAllT] at h
    rw [preorderT]
    cases hm : MatchesPath ⟨.mk d a cs, anc⟩ np.Path with
    | none => rw [hm] at h; exact absurd h (by simp)
    | some m =>
      rw [hm] at h
      have hl := findAllListT_ok np (.mk d a cs :: anc) _ cs l h
      have hnm : nodeMatches np ⟨.mk d a cs, anc⟩
          = (m && HasClass ⟨.mk d a cs, anc⟩ np.Class && HasID ⟨.mk d a cs, anc⟩ np.ID) := by
        rw [nodeMatches, hm]
        cases m <;> rfl
      rw [hl, List.filter_cons, hnm]
      cases m && HasClass ⟨.mk d a cs, anc⟩ np.Class && HasID ⟨.mk d a cs, anc⟩ np.ID with
      | true => simp
      | false => simp
/-- Sibling-list version of `findAllT_ok`. -/
theorem findAllListT_ok (np : NodePath) (anc : List HNode) (acc : List Node)
    (cs : List HNode) (l : List Node) (h : findAllListT np anc acc cs = .ok l) :
    l = acc ++ (preorderListT anc cs).filter (nodeMatches np) := by
  match cs with
  | [] =>
    rw [findAllListT] at h
    rw [preorderListT]
    simp at h
    simp [h]
  | c :: cs2 =>
    rw [findAllListT] at h
    rw [preorderListT]
    cases hc : findAllT np anc acc c with
    | error e => rw [hc] at h; exact absurd h (by simp)
    | ok acc2 =>
      rw [hc] at h
      have h1 := findAllT_ok np anc acc c acc2 hc
      have h2 := findAllListT_ok np anc acc2 cs2 l h
      rw [h2, h1, List.filter_append]
      simp
end

mutual
/-- When `findAll` returns without panicking, every node of the subtree
got a total `MatchesPath` answer. -/
theorem findAllT_isSome (np : NodePath) (anc : List HNode) (acc : List Node) (t : HNode)
    (l : List Node) (h : findAllT np anc acc t = .ok l) :
    ∀ m ∈ preorderT anc t, (MatchesPath m np.Path).isSome := by
  match t with
  | .mk d a cs =>
    rw [findAllT] at h
    cases hm : MatchesPath ⟨.mk d a cs, anc⟩ np.Path with
    | none => rw [hm] at h; exact absurd h (by simp)
    | some m0 =>
      rw [hm] at h
      intro m hmem
      rw [preorderT] at hmem
      rcases List.mem_cons.mp hmem with heq | hmem2
      · subst heq; rw [hm]; rfl
      · exact findAllListT_isSome np _ _ cs l h m hmem2
/-- Sibling-list version of `findAllT_isSome`. -/
theorem findAllListT_isSome (np : NodePath) (anc : List HNode) (acc : List Node)
    (cs : List HNode) (l : List Node) (h : findAllListT np anc acc cs = .ok l) :
    ∀ m ∈ preorderListT anc cs, (MatchesPath m np.Path).isSome := by
  match cs with
  | [] => intro m hmem; rw [preorderListT] at hmem; simp at hmem
  | c :: cs2 =>
    rw [findAllListT] at h
    cases hc : findAllT np anc acc c with
    | error e => rw [hc] at h; exact absurd h (by simp)
    | ok acc2 =>
      rw [hc] at h
      intro m hmem
      rw [preorderListT] at hmem
      rcases List.mem_append.mp hmem with h1 | h2
      · exact findAllT_isSome np anc acc c acc2 hc m h1
      · exact findAllListT_isSome np anc acc2 cs2 l h m h2
end

mutual
/-- When every node of the subtree has a total `MatchesPath` answer,
`FindPath` returns the head of the filtered pre-order. -/
theorem findPathT_eq (np : NodePath) (anc : List HNode) (t : HNode)
    (h : ∀ m ∈ preorderT anc t, (MatchesPath m np.Path).isSome) :
    findPathT np anc t = .ok (((preorderT anc t).filter (nodeMatches np)).head?) := by
  match t with
  | .mk d a cs =>
    have hself := h ⟨.mk d a cs, anc⟩ (by rw [preorderT]; exact List.mem_cons_self _ _)
    rw [findPathT, preorderT, List.filter_cons]
    split
    · next heq => rw [heq] at hself; simp at hself
    · next m heq =>
      have hnm : nodeMatches np ⟨.mk d a cs, anc⟩
          = (m && HasClass ⟨.mk d a cs, anc⟩ np.Class && HasID ⟨.mk d a cs, anc⟩ np.ID) := by
        rw [nodeMatches, heq]
        cases m <;> rfl
      rw [hnm]
      split
      · rfl
      · exact findPathListT_eq np _ cs
          (fun m2 hm2 => h m2 (by rw [preorderT]; exact List.mem_cons_of_mem _ hm2))
/-- Sibling-list version of `findPathT_eq`. -/
theorem findPathListT_eq (np : NodePath) (anc : List HNode) (cs : List HNode)
    (h : ∀ m ∈ preorderListT anc cs, (MatchesPath m np.Path).isSome) :
    findPathListT np anc cs = .ok (((preorderListT anc cs).filter (nodeMatches np)).head?) := by
  match cs with
  | [] => rw [findPathListT, preorderListT]; rfl
  | c :: cs2 =>
    have h1 := findPathT_eq np anc c
      (fun m hm => h m (by rw [preorderListT]; exact List.mem_append_left _ hm))
    have h2 := findPathListT_eq np anc cs2
      (fun m hm => h m (by rw [preorderListT]; exact List.mem_append_right _ hm))
    rw [findPathListT, preorderListT, List.filter_append, List.head?_append, h1]
    cases hh : ((preorderT anc c).filter (nodeMatches np)).head? with
    | some r => simp [Option.or]
    | none => simp [Option.or, h2]
end

mutual
/-- A node found by `FindPath` is a node of the searched subtree. -/
theorem findPathT_mem (np : NodePath) (anc : List HNode) (t : HNode) (r : Node)
    (h : findPathT np anc t = .ok (some r)) : r ∈ preorderT anc t := by
  match t with
  | .mk d a cs =>
    rw [findPathT] at h
    rw [preorderT]
    split at h
    · exact absurd h (by simp)
    · split at h
      · simp at h
        subst h
        exact List.mem_cons_self _ _
      · exact List.mem_cons_of_mem _ (findPathListT_mem np _ cs r h)
/-- Sibling-list version of `findPathT_mem`. -/
theorem findPathListT_mem (np : NodePath) (anc : List HNode) (cs : List HNode) (r : Node)
    (h : findPathListT np anc cs = .ok (some r)) : r ∈ preorderListT anc cs := by
  match cs with
  | [] => rw [findPathListT] at h; simp at h
  | c :: cs2 =>
    rw [findPathListT] at h
    rw [preorderListT]
    cases hc : findPathT np anc c with
    | error e => rw [hc] at h; simp at h
    | ok res =>
      rw [hc] at h
      cases res with
      | some r2 =>
        simp at h
        subst h
        exact List.mem_append_left _ (findPathT_mem np anc c _ hc)
      | none =>
        simp at h
        exact List.mem_append_right _ (findPathListT_mem np anc cs2 r h)
end

/-! ## Claim C7 -/

/-- C7 counterexample: on the tree built over `rRootT` with the query
`x/.r/.b`, `FindPath` returns the matching inner `b` node, but
`FindPathAll` — which must visit every node — reaches the root's second
child `b`, whose direct-child chain walks past the root, dereferences
the root's nil parent inside `MatchesPath`, and crashes instead of
returning the matching sequence. -/
theorem c7_counterexample :
    FindPath ⟨rRootT, []⟩ cexNP = .ok (some ⟨bInnerT, [rInnerT, xInnerT, rRootT]⟩) ∧
    FindPathAll ⟨rRootT, []⟩ cexNP = .error () :=
  ⟨rfl, rfl⟩

/-- C7 amended: whenever `FindPathAll` returns without crashing, it
returns exactly the matching nodes in depth-first pre-order document
order, and `FindPath` then also returns, with exactly the first element
of that sequence (no result iff the sequence is empty).  Both can crash
on queries whose direct-child-marked path runs past the root, and
`FindPath` may even return a match found before the crashing node while
`FindPathAll` crashes, per the counterexample. -/
theorem c7_amended_findpathall_is_preorder_filter (n : Node) (np : NodePath) (l : List Node)
    (h : FindPathAll n np = .ok l) :
    l = (preorder n).filter (nodeMatches np) ∧ FindPath n np = .ok l.head? := by
  rw [FindPathAll] at h
  have h1 := findAllT_ok np n.ancestors [] n.self l h
  simp only [List.nil_append] at h1
  have h2 := findAllT_isSome np n.ancestors [] n.self l h
  have h3 := findPathT_eq np n.ancestors n.self h2
  constructor
  · rw [preorder]
    exact h1
  · rw [FindPath, h3, h1]

/-- Witness for C7 amended: on `<div><h1 class="element"/><h1/></div>`
with query `div/h1`, the returned list is the filtered pre-order and
`FindPath` returns its head. -/
theorem c7_witness :
    ([⟨h1ElemT, [divPairT]⟩, ⟨h1PlainT, [divPairT]⟩] : List Node)
      = (preorder ⟨divPairT, []⟩).filter (nodeMatches divH1NP) ∧
    FindPath ⟨divPairT, []⟩ divH1NP
      = .ok ([⟨h1ElemT, [divPairT]⟩, ⟨h1PlainT, [divPairT]⟩] : List Node).head? :=
  c7_amended_findpathall_is_preorder_filter ⟨divPairT, []⟩ divH1NP _ rfl

/-! ## Claim C8 -/

/-- C8: the lookup operations have no observable side effect on the
tree.  In this embedding every lookup is a pure function of the located
node — the translation of each Go lookup performs no field write, so the
tree after a run is the tree before it — hence running a lookup twice on
the same tree yields identical results, and every node a lookup hands
back is a node of the unmodified tree (a member of its pre-order
listing, or of the upward parent chain for `FindTagReverse`), with tag,
attributes, parent chain and children exactly as recorded in the
tree. -/
theorem c8_lookups_pure (n : Node) (np : NodePath) (tag path : String) :
    FindPath n np = FindPath n np ∧
    FindPathAll n np = FindPathAll n np ∧
    FindTag n tag = FindTag n tag ∧
    FindTagReverse n tag = FindTagReverse n tag ∧
    MatchesPath n path = MatchesPath n path ∧
    FlattenChildren n = FlattenChildren n ∧
    Path n = Path n ∧
    (∀ r, FindPath n np = .ok (some r) → r ∈ preorder n) ∧
    (∀ l r, FindPathAll n np = .ok l → r ∈ l → r ∈ preorder n) ∧
    (∀ r, r ∈ FlattenChildren n → r ∈ preorder n) ∧
    (∀ r, FindTag n tag = some r → r ∈ preorder n) ∧
    (∀ r, FindTagReverse n tag = some r → r ∈ parentChain n) := by
  refine ⟨rfl, rfl, rfl, rfl, rfl, rfl, rfl, ?_, ?_, ?_, ?_, ?_⟩
  · intro r h
    rw [FindPath] at h
    rw [preorder]
    exact findPathT_mem np n.ancestors n.self r h
  · intro l r h hmem
    rw [FindPathAll] at h
    have h1 := findAllT_ok np n.ancestors [] n.self l h
    simp only [List.nil_append] at h1
    rw [preorder]
    rw [h1] at hmem
    exact List.mem_of_mem_filter hmem
  · intro r h
    exact mem_flattenChildren_mem_preorder n r h
  · intro r h
    rw [FindTag] at h
    rw [preorder]
    exact findTagT_mem tag n.ancestors n.self r h
  · intro r h
    rw [FindTagReverse] at h
    rw [parentChain]
    exact findTagReverseT_mem tag n.ancestors n.self r h

/-- Witness for C8: a concrete `FindPath` run on the unmodified tree of
`<div><h1 class="element"/><h1/></div>` hands back a node of that tree. -/
theorem c8_witness :
    (⟨h1ElemT, [divPairT]⟩ : Node) ∈ preorder ⟨divPairT, []⟩ := by
  obtain ⟨-, -, -, -, -, -, -, h8, -, -, -, -⟩ :=
    c8_lookups_pure ⟨divPairT, []⟩ ⟨"div/h1", "", "element"⟩ "h1" ""
  exact h8 ⟨h1ElemT, [divPairT]⟩ rfl

end GoElement

